import Mathlib

/-!
Verification of the frame-to-character-grid encoding pipeline of the
`breh` repository (`bruh.py`, `video.py`, `screen.py`).

The embedding translates the pure algorithmic core of the Python sources:
the BT.601 color metric (`to_yuv`, `color_dist2`), the half-up channel
average (`average_color`), the exhaustive 16-mask 2x2-block quantizer
(`pick_best_mask`), the glyph table (`QUAD_CHARS`), the run-length row
encoder of `screen.py` (`compress_row_rgb`) and the batching loop of the
`main` functions.  Python's real arithmetic is embedded exactly as
rational arithmetic over `ℚ`; for every rational-valued definition there
is an integer-scaled mirror (`dist2Z`, `avgN`, `pick_best_maskZ`, ...)
proved equal to the direct embedding, which makes concrete inputs
computable by `decide`.
-/

/-- An RGB color, one natural number per channel (`(r, g, b)`). -/
abbrev Color : Type := ℕ × ℕ × ℕ

/-- `to_yuv` from `bruh.py` lines 130-135 (identical copy in `video.py`):
BT.601 luma/chroma transform of an RGB triple, embedded over `ℚ`. -/
def to_yuv (c : Color) : ℚ × ℚ × ℚ :=
  let r : ℚ := c.1
  let g : ℚ := c.2.1
  let b : ℚ := c.2.2
  (0.299 * r + 0.587 * g + 0.114 * b,
   -0.168736 * r - 0.331264 * g + 0.5 * b,
   0.5 * r - 0.418688 * g - 0.081312 * b)

/-- `color_dist2` from `bruh.py` lines 138-144: squared YUV distance with
luma weighted twice. -/
def color_dist2 (a b : Color) : ℚ :=
  let dy := (to_yuv a).1 - (to_yuv b).1
  let du := (to_yuv a).2.1 - (to_yuv b).2.1
  let dv := (to_yuv a).2.2 - (to_yuv b).2.2
  dy * dy * 2.0 + du * du + dv * dv

/-- Python's `int(·)` on a rational: truncation toward zero. -/
def py_int (x : ℚ) : ℤ :=
  if 0 ≤ x then Int.floor x else Int.ceil x

/-- `average_color` from `bruh.py` lines 147-153: channelwise mean of a
list of colors, `int(mean + 0.5)` per channel; `(0,0,0)` for an empty
list. -/
def average_color (colors : List Color) : Color :=
  if colors = [] then (0, 0, 0)
  else
    let n : ℚ := colors.length
    let r := (colors.map fun c => (c.1 : ℚ)).sum / n
    let g := (colors.map fun c => (c.2.1 : ℚ)).sum / n
    let b := (colors.map fun c => (c.2.2 : ℚ)).sum / n
    ((py_int (r + 0.5)).toNat, (py_int (g + 0.5)).toNat, (py_int (b + 0.5)).toNat)

/-- The four colors of one 2x2 block, in the order of the list
`[tl, tr, bl, br]` passed to `pick_best_mask` in `bruh.py` line 214. -/
structure Quad where
  tl : Color
  tr : Color
  bl : Color
  br : Color
deriving DecidableEq

/-- `quads[i]` of `bruh.py`: index into the `[tl, tr, bl, br]` list. -/
def Quad.px (q : Quad) : ℕ → Color
  | 0 => q.tl
  | 1 => q.tr
  | 2 => q.bl
  | _ => q.br

/-- The full `quads` list `[tl, tr, bl, br]`. -/
def Quad.toList (q : Quad) : List Color := [q.tl, q.tr, q.bl, q.br]

/-- The foreground set of a mask, `bruh.py` lines 163-169: pixels `i` with
`mask & (1 << i)` set, in index order. -/
def fg_set (q : Quad) (mask : ℕ) : List Color :=
  ((List.range 4).filter fun i => mask &&& (1 <<< i) != 0).map q.px

/-- The background set of a mask, `bruh.py` lines 163-169: pixels `i` with
`mask & (1 << i)` clear, in index order. -/
def bg_set (q : Quad) (mask : ℕ) : List Color :=
  ((List.range 4).filter fun i => mask &&& (1 <<< i) == 0).map q.px

/-- The `(fg, bg)` pair computed for one mask, `bruh.py` lines 171-172:
the average of each group, falling back to the average of all four pixels
when a group is empty. -/
def mask_fg_bg (q : Quad) (mask : ℕ) : Color × Color :=
  (if fg_set q mask ≠ [] then average_color (fg_set q mask) else average_color q.toList,
   if bg_set q mask ≠ [] then average_color (bg_set q mask) else average_color q.toList)

/-- The error of one mask, `bruh.py` lines 174-177: sum over the four
pixels of the distance to the pixel's assigned group color. -/
def mask_err (q : Quad) (mask : ℕ) : ℚ :=
  ((List.range 4).map fun i =>
    color_dist2 (q.px i)
      (if mask &&& (1 <<< i) != 0 then (mask_fg_bg q mask).1 else (mask_fg_bg q mask).2)).sum

/-- The running state of the mask scan in `pick_best_mask`
(`best_mask`, `best_fg`, `best_bg`, `best_err`), with `best_err = none`
embedding Python's initial `None`.  The error type is a parameter so that
the exact rational scan and its integer-scaled mirror share the shape. -/
structure BestState (E : Type) where
  best_mask : ℕ
  best_fg : Color
  best_bg : Color
  best_err : Option E

/-- One iteration of the `for mask in range(16)` loop of `bruh.py`
lines 162-183. -/
def pick_step (q : Quad) (st : BestState ℚ) (mask : ℕ) : BestState ℚ :=
  let fg := (mask_fg_bg q mask).1
  let bg := (mask_fg_bg q mask).2
  let err := mask_err q mask
  match st.best_err with
  | none => ⟨mask, fg, bg, some err⟩
  | some be => if err < be then ⟨mask, fg, bg, some err⟩ else st

/-- `pick_best_mask` from `bruh.py` lines 156-185 (identical copy in
`video.py`): scan the 16 masks in ascending order, keep the first strict
minimum, return `(best_mask, best_fg, best_bg)`. -/
def pick_best_mask (q : Quad) : ℕ × Color × Color :=
  let st := (List.range 16).foldl (pick_step q) ⟨0, q.px 0, q.px 0, none⟩
  (st.best_mask, st.best_fg, st.best_bg)

/-- Integer-scaled mirror of `to_yuv`: every coefficient multiplied by
`10^6`, so `yuvZ c = 10^6 • to_yuv c` componentwise.  Used only to make
concrete evaluation kernel-computable; proved equal below. -/
def yuvZ (c : Color) : ℤ × ℤ × ℤ :=
  let r : ℤ := c.1
  let g : ℤ := c.2.1
  let b : ℤ := c.2.2
  (299000 * r + 587000 * g + 114000 * b,
   -168736 * r - 331264 * g + 500000 * b,
   500000 * r - 418688 * g - 81312 * b)

/-- Integer-scaled mirror of `color_dist2`: scaled by `10^12`. -/
def dist2Z (a b : Color) : ℤ :=
  let dy := (yuvZ a).1 - (yuvZ b).1
  let du := (yuvZ a).2.1 - (yuvZ b).2.1
  let dv := (yuvZ a).2.2 - (yuvZ b).2.2
  dy * dy * 2 + du * du + dv * dv

/-- Natural-number mirror of `average_color`: each channel is
`(2*sum + n) / (2*n)` in floor division, which equals
`int(sum/n + 0.5)`; proved equal below. -/
def avgN (colors : List Color) : Color :=
  if colors = [] then (0, 0, 0)
  else
    let n := colors.length
    ((2 * (colors.map fun c => c.1).sum + n) / (2 * n),
     (2 * (colors.map fun c => c.2.1).sum + n) / (2 * n),
     (2 * (colors.map fun c => c.2.2).sum + n) / (2 * n))

/-- Mirror of `mask_fg_bg` built on `avgN`. -/
def mask_fg_bgN (q : Quad) (mask : ℕ) : Color × Color :=
  (if fg_set q mask ≠ [] then avgN (fg_set q mask) else avgN q.toList,
   if bg_set q mask ≠ [] then avgN (bg_set q mask) else avgN q.toList)

/-- Mirror of `mask_err` scaled by `10^12`, built on `dist2Z` and
`mask_fg_bgN`. -/
def mask_errZ (q : Quad) (mask : ℕ) : ℤ :=
  ((List.range 4).map fun i =>
    dist2Z (q.px i)
      (if mask &&& (1 <<< i) != 0 then (mask_fg_bgN q mask).1 else (mask_fg_bgN q mask).2)).sum

/-- Mirror of `pick_step` over scaled integer errors. -/
def pick_stepZ (q : Quad) (st : BestState ℤ) (mask : ℕ) : BestState ℤ :=
  let fg := (mask_fg_bgN q mask).1
  let bg := (mask_fg_bgN q mask).2
  let err := mask_errZ q mask
  match st.best_err with
  | none => ⟨mask, fg, bg, some err⟩
  | some be => if err < be then ⟨mask, fg, bg, some err⟩ else st

/-- Mirror of `pick_best_mask` over scaled integer errors; proved equal to
`pick_best_mask` below, and kernel-computable. -/
def pick_best_maskZ (q : Quad) : ℕ × Color × Color :=
  let st := (List.range 16).foldl (pick_stepZ q) ⟨0, q.px 0, q.px 0, none⟩
  (st.best_mask, st.best_fg, st.best_bg)

/-- `QUAD_CHARS` from `bruh.py` lines 69-86: the 16-glyph table indexed by
mask (bit0=TL, bit1=TR, bit2=BL, bit3=BR). -/
def QUAD_CHARS : List String :=
  [" ", "▘", "▝", "▀", "▖", "▌", "▞", "▛",
   "▗", "▚", "▐", "▜", "▄", "▙", "▟", "■"]

/-- `QUAD_CHARS` from `video.py` lines 39-42 (the second copy of the
table, kept separate so the two files can be compared entry for entry). -/
def QUAD_CHARS_video : List String :=
  [" ", "▘", "▝", "▀", "▖", "▌", "▞", "▛",
   "▗", "▚", "▐", "▜", "▄", "▙", "▟", "■"]

/-- Modelled from the spec: the fixed wire-contract glyph alphabet of the
external-interfaces section, `0`=space, `1`=▘, ..., `15`=■, written out
from the spec's own enumeration. -/
def wire_glyph_alphabet : List String :=
  [" ", "▘", "▝", "▀", "▖", "▌", "▞", "▛",
   "▗", "▚", "▐", "▜", "▄", "▙", "▟", "■"]

/-- One cell dictionary `{"x": x, "y": y, "ch": ch, "fg": fg, "bg": bg}`
built in `bruh.py` line 216. -/
structure Cell where
  x : ℕ
  y : ℕ
  ch : String
  fg : Color
  bg : Color
deriving DecidableEq

/-- Read pixel `frame_rgb[y, x]` of a row-major buffer, with an arbitrary
default outside the bounds (the pipeline only reads in-bounds pixels). -/
def px_at (sub : List (List Color)) (y x : ℕ) : Color :=
  (sub.getD y []).getD x (0, 0, 0)

/-- The 2x2 block of the subpixel buffer feeding grid cell `(x, y)`:
`tl, tr, bl, br` as read in `bruh.py` lines 209-212. -/
def quad_at (sub : List (List Color)) (x y : ℕ) : Quad :=
  ⟨px_at sub (y * 2) (x * 2), px_at sub (y * 2) (x * 2 + 1),
   px_at sub (y * 2 + 1) (x * 2), px_at sub (y * 2 + 1) (x * 2 + 1)⟩

/-- The cell built for grid position `(x, y)` in `bruh.py` lines 214-216:
quantize the 2x2 block and pair the winning mask's glyph with its colors. -/
def cell_at (sub : List (List Color)) (x y : ℕ) : Cell :=
  let r := pick_best_mask (quad_at sub x y)
  ⟨x, y, QUAD_CHARS.getD r.1 " ", r.2.1, r.2.2⟩

/-- The double loop of `bruh.py` lines 204-218: one cell per grid
position, row by row, left to right. -/
def build_cells_grid (sub : List (List Color)) (width height : ℕ) : List Cell :=
  (List.range height).flatMap fun y => (List.range width).map fun x => cell_at sub x y

/-- The frame-level failure conditions of the pipeline. -/
inductive FrameError : Type
  | invalidDimensions
deriving DecidableEq

/-- Modelled from the spec: the area resampler of the resize step
(`cv2.resize` with `INTER_AREA`, called by `build_cells_from_frame` in
`bruh.py` lines 193-200 and by `linear_resize` in `screen.py` lines
141-150; its implementation is an external library, not repository code).
Per the spec it fails fast with an InvalidDimensions condition when the
target width or height is ≤ 0 or the source frame is empty, and otherwise
returns an exact `height × width` buffer whose sample values are
abstracted by the `sample` parameter. -/
def area_resize (sample : ℕ → ℕ → Color) (frame : List (List Color))
    (width height : ℤ) : Except FrameError (List (List Color)) :=
  if width ≤ 0 ∨ height ≤ 0 ∨ frame.flatten = [] then
    Except.error FrameError.invalidDimensions
  else
    Except.ok ((List.range height.toNat).map fun y =>
      (List.range width.toNat).map fun x => sample x y)

/-- `build_cells_from_frame` from `bruh.py` lines 188-218 (identical copy
in `video.py`): resize the frame to the `width*2 × height*2` subpixel
grid, then quantize every 2x2 block.  A resize failure propagates, as the
uncaught Python exception does. -/
def build_cells_from_frame (sample : ℕ → ℕ → Color) (frame : List (List Color))
    (width height : ℤ) : Except FrameError (List Cell) :=
  match area_resize sample frame (width * 2) (height * 2) with
  | Except.error e => Except.error e
  | Except.ok sub => Except.ok (build_cells_grid sub width.toNat height.toNat)

/-- The batching loop of `main`, `bruh.py` lines 347-354 and `video.py`
lines 189-196: state `(sent batches, open batch)`; append the unit, and
hand the open batch off once `len(batch) >= BATCH_SIZE`. -/
def batch_step {α : Type} (N : ℕ) (acc : List (List α) × List α) (cell : α) :
    List (List α) × List α :=
  let batch := acc.2 ++ [cell]
  if N ≤ batch.length then (acc.1 ++ [batch], []) else (acc.1, batch)

/-- The full batching loop: run `batch_step` over the stream and hand off
the final batch if it is non-empty (`if batch: send_cells(batch)`). -/
def emit_batches {α : Type} (N : ℕ) (cells : List α) : List (List α) :=
  let acc := cells.foldl (batch_step N) ([], [])
  if acc.2.isEmpty then acc.1 else acc.1 ++ [acc.2]

/-- A frame's whole cell-mode processing: build the cells, then batch
them.  On an invalid frame no batch is produced at all. -/
def frame_batches (sample : ℕ → ℕ → Color) (frame : List (List Color))
    (width height : ℤ) (N : ℕ) : Except FrameError (List (List Cell)) :=
  Except.map (emit_batches N) (build_cells_from_frame sample frame width height)

/-- One run dictionary
`{"count": count, "ch": "■", "fg": [r, g, b], "bg": [0, 0, 0]}` as built
in `screen.py` lines 164 and 167. -/
structure Run where
  count : ℕ
  ch : String
  fg : Color
  bg : Color
deriving DecidableEq

/-- The run closed for representative color `prev` after `count` equal
pixels (`screen.py` lines 164/167). -/
def close_run (count : ℕ) (prev : Color) : Run :=
  ⟨count, "■", prev, (0, 0, 0)⟩

/-- The compression loop of `compress_row_rgb`, `screen.py` lines 158-168:
state `(prev, count, runs)`; extend the run on exact equality, otherwise
close it and start a new one; close the last run at the end of the row. -/
def compress_go : List Color → Color → ℕ → List Run → List Run
  | [], prev, count, runs => runs ++ [close_run count prev]
  | px :: rest, prev, count, runs =>
    if px = prev then compress_go rest prev (count + 1) runs
    else compress_go rest px 1 (runs ++ [close_run count prev])

/-- `compress_row_rgb` from `screen.py` lines 153-168: run-length encode
one row of RGB pixels; an empty row yields no runs. -/
def compress_row_rgb (row : List Color) : List Run :=
  match row with
  | [] => []
  | px :: rest => compress_go rest px 1 []

/-- Modelled from the spec: decoding a run list back to a flat pixel row,
each run expanded to `count` copies of its color (the round-trip law of
the testable-properties section). -/
def expand_runs (runs : List Run) : List Color :=
  (runs.map fun r => List.replicate r.count r.fg).flatten

/-- The total pixel count covered by a run list. -/
def sum_counts (runs : List Run) : ℕ :=
  (runs.map fun r => r.count).sum

/-- Invariant of the mask scan: after the masks in `seen` have been
processed, the state holds a seen mask together with its own error and
colors, its error is minimal over `seen`, and every seen mask below it
has strictly larger error (it is the first minimum). -/
def scan_inv (q : Quad) (st : BestState ℚ) (seen : List ℕ) : Prop :=
  (st.best_err = none ∧ seen = []) ∨
  (st.best_mask ∈ seen ∧
   st.best_err = some (mask_err q st.best_mask) ∧
   st.best_fg = (mask_fg_bg q st.best_mask).1 ∧
   st.best_bg = (mask_fg_bg q st.best_mask).2 ∧
   (∀ m ∈ seen, mask_err q st.best_mask ≤ mask_err q m) ∧
   (∀ m ∈ seen, m < st.best_mask → mask_err q st.best_mask < mask_err q m))

/-! ### Bridge lemmas: the exact rational pipeline equals its integer mirror -/

theorem py_int_of_nonneg (x : ℚ) (hx : 0 ≤ x) : py_int x = Int.floor x := by
  simp [py_int, hx]

theorem py_int_round_channel (s n : ℕ) (hn : 0 < n) :
    (py_int ((s : ℚ) / (n : ℚ) + 0.5)).toNat = (2 * s + n) / (2 * n) := by
  have hx : (0 : ℚ) ≤ (s : ℚ) / (n : ℚ) + 0.5 := by positivity
  rw [py_int_of_nonneg _ hx]
  have h1 : (s : ℚ) / (n : ℚ) + 0.5 = ((2 * s + n : ℕ) : ℚ) / ((2 * n : ℕ) : ℚ) := by
    have hn0 : (n : ℚ) ≠ 0 := by positivity
    push_cast
    field_simp
    ring
  rw [h1, Int.floor_toNat, Nat.floor_div_nat, Nat.floor_natCast]

theorem sum_cast_fst (l : List Color) :
    (l.map fun c => (c.1 : ℚ)).sum = (((l.map fun c => c.1).sum : ℕ) : ℚ) := by
  rw [Nat.cast_list_sum, List.map_map]
  rfl

theorem sum_cast_snd (l : List Color) :
    (l.map fun c => (c.2.1 : ℚ)).sum = (((l.map fun c => c.2.1).sum : ℕ) : ℚ) := by
  rw [Nat.cast_list_sum, List.map_map]
  rfl

theorem sum_cast_thd (l : List Color) :
    (l.map fun c => (c.2.2 : ℚ)).sum = (((l.map fun c => c.2.2).sum : ℕ) : ℚ) := by
  rw [Nat.cast_list_sum, List.map_map]
  rfl

theorem average_color_eq_avgN (colors : List Color) :
    average_color colors = avgN colors := by
  by_cases h : colors = []
  · simp [average_color, avgN, h]
  · have hn : 0 < colors.length := List.length_pos.mpr h
    simp only [average_color, avgN, if_neg h]
    rw [sum_cast_fst, sum_cast_snd, sum_cast_thd,
      py_int_round_channel _ _ hn, py_int_round_channel _ _ hn,
      py_int_round_channel _ _ hn]

theorem color_dist2_eq_dist2Z (a b : Color) :
    color_dist2 a b = (dist2Z a b : ℚ) / 10 ^ 12 := by
  simp only [color_dist2, dist2Z, to_yuv, yuvZ]
  push_cast
  norm_num
  ring

theorem mask_fg_bgN_eq (q : Quad) (mask : ℕ) :
    mask_fg_bgN q mask = mask_fg_bg q mask := by
  simp [mask_fg_bg, mask_fg_bgN, average_color_eq_avgN]

theorem mask_err_eq (q : Quad) (mask : ℕ) :
    mask_err q mask = (mask_errZ q mask : ℚ) / 10 ^ 12 := by
  have hr : List.range 4 = [0, 1, 2, 3] := rfl
  simp only [mask_err, mask_errZ, hr, mask_fg_bgN_eq, List.map_cons, List.map_nil,
    List.sum_cons, List.sum_nil, color_dist2_eq_dist2Z]
  push_cast
  ring

theorem pick_step_rel (q : Quad) (sq : BestState ℚ) (sz : BestState ℤ) (m : ℕ)
    (h1 : sq.best_mask = sz.best_mask) (h2 : sq.best_fg = sz.best_fg)
    (h3 : sq.best_bg = sz.best_bg)
    (h4 : sq.best_err = Option.map (fun z : ℤ => (z : ℚ) / 10 ^ 12) sz.best_err) :
    (pick_step q sq m).best_mask = (pick_stepZ q sz m).best_mask ∧
    (pick_step q sq m).best_fg = (pick_stepZ q sz m).best_fg ∧
    (pick_step q sq m).best_bg = (pick_stepZ q sz m).best_bg ∧
    (pick_step q sq m).best_err
      = Option.map (fun z : ℤ => (z : ℚ) / 10 ^ 12) (pick_stepZ q sz m).best_err := by
  cases hz : sz.best_err with
  | none =>
    have h4' : sq.best_err = none := by rw [h4, hz]; rfl
    simp [pick_step, pick_stepZ, h4', hz, mask_fg_bgN_eq, mask_err_eq]
  | some bz =>
    have h4' : sq.best_err = some ((bz : ℚ) / 10 ^ 12) := by rw [h4, hz]; rfl
    have hcmp : (mask_err q m < (bz : ℚ) / 10 ^ 12) ↔ mask_errZ q m < bz := by
      rw [mask_err_eq, div_lt_div_iff_of_pos_right (by norm_num : (0 : ℚ) < 10 ^ 12)]
      exact_mod_cast Iff.rfl
    by_cases hlt : mask_errZ q m < bz
    · have hq : ((mask_errZ q m : ℚ)) / 10 ^ 12 < (bz : ℚ) / 10 ^ 12 := by
        rw [← mask_err_eq]; exact hcmp.mpr hlt
      simp [pick_step, pick_stepZ, h4', hz, hlt, hq, mask_fg_bgN_eq, mask_err_eq]
    · have hq : ¬ ((mask_errZ q m : ℚ)) / 10 ^ 12 < (bz : ℚ) / 10 ^ 12 := by
        rw [← mask_err_eq]; exact fun hc => hlt (hcmp.mp hc)
      simp [pick_step, pick_stepZ, h4', hz, hlt, hq, h1, h2, h3, h4, mask_err_eq]

theorem pick_fold_rel (q : Quad) : ∀ (l : List ℕ) (sq : BestState ℚ) (sz : BestState ℤ),
    sq.best_mask = sz.best_mask → sq.best_fg = sz.best_fg → sq.best_bg = sz.best_bg →
    sq.best_err = Option.map (fun z : ℤ => (z : ℚ) / 10 ^ 12) sz.best_err →
    (l.foldl (pick_step q) sq).best_mask = (l.foldl (pick_stepZ q) sz).best_mask ∧
    (l.foldl (pick_step q) sq).best_fg = (l.foldl (pick_stepZ q) sz).best_fg ∧
    (l.foldl (pick_step q) sq).best_bg = (l.foldl (pick_stepZ q) sz).best_bg ∧
    (l.foldl (pick_step q) sq).best_err
      = Option.map (fun z : ℤ => (z : ℚ) / 10 ^ 12) (l.foldl (pick_stepZ q) sz).best_err := by
  intro l
  induction l with
  | nil => intro sq sz h1 h2 h3 h4; exact ⟨h1, h2, h3, h4⟩
  | cons m rest ih =>
    intro sq sz h1 h2 h3 h4
    obtain ⟨g1, g2, g3, g4⟩ := pick_step_rel q sq sz m h1 h2 h3 h4
    exact ih (pick_step q sq m) (pick_stepZ q sz m) g1 g2 g3 g4

theorem pick_best_mask_eq_Z (q : Quad) : pick_best_mask q = pick_best_maskZ q := by
  obtain ⟨g1, g2, g3, _⟩ := pick_fold_rel q (List.range 16)
    ⟨0, q.px 0, q.px 0, none⟩ ⟨0, q.px 0, q.px 0, none⟩ rfl rfl rfl rfl
  simp only [pick_best_mask, pick_best_maskZ]
  rw [g1, g2, g3]

/-! ### The mask scan keeps the first strict minimum -/

theorem scan_inv_step (q : Quad) (st : BestState ℚ) (seen : List ℕ) (k : ℕ)
    (hinv : scan_inv q st seen) (hgt : ∀ s ∈ seen, s < k) :
    scan_inv q (pick_step q st k) (seen ++ [k]) := by
  rcases hinv with ⟨hnone, hseen⟩ | ⟨hmem, herr, hfg, hbg, hmin, hstrict⟩
  · subst hseen
    have hstep : pick_step q st k
        = ⟨k, (mask_fg_bg q k).1, (mask_fg_bg q k).2, some (mask_err q k)⟩ := by
      simp [pick_step, hnone]
    rw [hstep]
    right
    refine ⟨by simp, rfl, rfl, rfl, ?_, ?_⟩
    · intro m hm
      simp at hm
      subst hm
      exact le_refl _
    · intro m hm hmk
      simp at hm
      simp at hmk
      omega
  · by_cases hlt : mask_err q k < mask_err q st.best_mask
    · have hstep : pick_step q st k
          = ⟨k, (mask_fg_bg q k).1, (mask_fg_bg q k).2, some (mask_err q k)⟩ := by
        simp [pick_step, herr, hlt]
      rw [hstep]
      right
      refine ⟨by simp, rfl, rfl, rfl, ?_, ?_⟩
      · intro m hm
        rcases List.mem_append.mp hm with hm | hm
        · exact le_of_lt (lt_of_lt_of_le hlt (hmin m hm))
        · simp at hm
          subst hm
          exact le_refl _
      · intro m hm hmk
        rcases List.mem_append.mp hm with hm | hm
        · exact lt_of_lt_of_le hlt (hmin m hm)
        · simp at hm
          simp at hmk
          omega
    · have hstep : pick_step q st k = st := by
        simp [pick_step, herr, hlt]
      rw [hstep]
      right
      refine ⟨List.mem_append.mpr (Or.inl hmem), herr, hfg, hbg, ?_, ?_⟩
      · intro m hm
        rcases List.mem_append.mp hm with hm | hm
        · exact hmin m hm
        · simp at hm
          subst hm
          exact le_of_not_lt hlt
      · intro m hm hmk
        rcases List.mem_append.mp hm with hm | hm
        · exact hstrict m hm hmk
        · simp at hm
          subst hm
          exact absurd hmk (by have := hgt _ hmem; omega)

theorem scan_inv_fold (q : Quad) : ∀ (l seen : List ℕ) (st : BestState ℚ),
    scan_inv q st seen →
    (∀ s ∈ seen, ∀ k ∈ l, s < k) →
    List.Pairwise (· < ·) l →
    scan_inv q (l.foldl (pick_step q) st) (seen ++ l) := by
  intro l
  induction l with
  | nil =>
    intro seen st hinv _ _
    simpa using hinv
  | cons k rest ih =>
    intro seen st hinv hgt hpw
    have h1 : scan_inv q (pick_step q st k) (seen ++ [k]) :=
      scan_inv_step q st seen k hinv (fun s hs => hgt s hs k (List.mem_cons_self k rest))
    have h2 : ∀ s ∈ seen ++ [k], ∀ j ∈ rest, s < j := by
      intro s hs j hj
      rcases List.mem_append.mp hs with hs | hs
      · exact hgt s hs j (List.mem_cons_of_mem _ hj)
      · simp at hs
        subst hs
        exact (List.pairwise_cons.mp hpw).1 j hj
    have h3 := ih (seen ++ [k]) (pick_step q st k) h1 h2 (List.pairwise_cons.mp hpw).2
    simpa [List.append_assoc] using h3

/-- Master specification of `pick_best_mask`: the winner is one of the 16
masks, carries its own foreground/background pair, has minimal error, and
every lower mask index has strictly larger error (ascending first-minimum
scan). -/
theorem pick_best_mask_spec (q : Quad) :
    (pick_best_mask q).1 < 16 ∧
    (pick_best_mask q).2.1 = (mask_fg_bg q (pick_best_mask q).1).1 ∧
    (pick_best_mask q).2.2 = (mask_fg_bg q (pick_best_mask q).1).2 ∧
    (∀ m, m < 16 → mask_err q (pick_best_mask q).1 ≤ mask_err q m) ∧
    (∀ m, m < (pick_best_mask q).1 → mask_err q (pick_best_mask q).1 < mask_err q m) := by
  have h := scan_inv_fold q (List.range 16) [] ⟨0, q.px 0, q.px 0, none⟩
    (Or.inl ⟨rfl, rfl⟩) (by simp) (List.pairwise_lt_range 16)
  rw [List.nil_append] at h
  have hpick : pick_best_mask q
      = (((List.range 16).foldl (pick_step q) ⟨0, q.px 0, q.px 0, none⟩).best_mask,
         ((List.range 16).foldl (pick_step q) ⟨0, q.px 0, q.px 0, none⟩).best_fg,
         ((List.range 16).foldl (pick_step q) ⟨0, q.px 0, q.px 0, none⟩).best_bg) := rfl
  rcases h with ⟨_, habs⟩ | ⟨hmem, _, hfg, hbg, hmin, hstrict⟩
  · exact absurd habs (by decide)
  · rw [hpick]
    have hlt : (((List.range 16).foldl (pick_step q) ⟨0, q.px 0, q.px 0, none⟩).best_mask) < 16 :=
      List.mem_range.mp hmem
    refine ⟨hlt, hfg, hbg, ?_, ?_⟩
    · intro m hm
      exact hmin m (List.mem_range.mpr hm)
    · intro m hm
      exact hstrict m (List.mem_range.mpr (lt_trans hm hlt)) hm

theorem color_dist2_nonneg (a b : Color) : 0 ≤ color_dist2 a b := by
  show (0 : ℚ) ≤ ((to_yuv a).1 - (to_yuv b).1) * ((to_yuv a).1 - (to_yuv b).1) * 2.0
      + ((to_yuv a).2.1 - (to_yuv b).2.1) * ((to_yuv a).2.1 - (to_yuv b).2.1)
      + ((to_yuv a).2.2 - (to_yuv b).2.2) * ((to_yuv a).2.2 - (to_yuv b).2.2)
  have h1 := mul_self_nonneg ((to_yuv a).1 - (to_yuv b).1)
  have h2 := mul_self_nonneg ((to_yuv a).2.1 - (to_yuv b).2.1)
  have h3 := mul_self_nonneg ((to_yuv a).2.2 - (to_yuv b).2.2)
  have h20 : (0 : ℚ) ≤ 2.0 := by norm_num
  nlinarith

theorem color_dist2_self (c : Color) : color_dist2 c c = 0 := by
  show ((to_yuv c).1 - (to_yuv c).1) * ((to_yuv c).1 - (to_yuv c).1) * 2.0
      + ((to_yuv c).2.1 - (to_yuv c).2.1) * ((to_yuv c).2.1 - (to_yuv c).2.1)
      + ((to_yuv c).2.2 - (to_yuv c).2.2) * ((to_yuv c).2.2 - (to_yuv c).2.2) = 0
  ring

theorem mask_err_nonneg (q : Quad) (mask : ℕ) : 0 ≤ mask_err q mask := by
  apply List.sum_nonneg
  intro x hx
  simp only [List.mem_map] at hx
  obtain ⟨i, _, rfl⟩ := hx
  exact color_dist2_nonneg _ _

theorem avg_four_channel (r : ℕ) : (2 * (r + (r + (r + (r + 0)))) + 4) / (2 * 4) = r := by
  have h : 2 * (r + (r + (r + (r + 0)))) + 4 = 8 * r + 4 := by ring
  have h8 : (2 : ℕ) * 4 = 8 := by norm_num
  rw [h, h8, Nat.mul_add_div (by norm_num)]
  norm_num

theorem average_color_four_same (c : Color) : average_color [c, c, c, c] = c := by
  rw [average_color_eq_avgN]
  obtain ⟨r, g, b⟩ := c
  simp only [avgN, List.map_cons, List.map_nil, List.sum_cons, List.sum_nil, List.length_cons,
    List.length_nil]
  rw [if_neg (by simp)]
  show ((2 * (r + (r + (r + (r + 0)))) + 4) / (2 * 4),
        (2 * (g + (g + (g + (g + 0)))) + 4) / (2 * 4),
        (2 * (b + (b + (b + (b + 0)))) + 4) / (2 * 4)) = (r, g, b)
  rw [avg_four_channel, avg_four_channel, avg_four_channel]

theorem mask_fg_bg_uniform_zero (c : Color) :
    mask_fg_bg ⟨c, c, c, c⟩ 0 = (c, c) := by
  have h1 : fg_set ⟨c, c, c, c⟩ 0 = [] := rfl
  have h2 : bg_set ⟨c, c, c, c⟩ 0 = [c, c, c, c] := rfl
  have h3 : Quad.toList ⟨c, c, c, c⟩ = [c, c, c, c] := rfl
  simp only [mask_fg_bg, h1, h2, h3]
  rw [if_neg (by simp), if_pos (by simp)]
  rw [average_color_four_same]

theorem mask_fg_bg_uniform_fifteen (c : Color) :
    mask_fg_bg ⟨c, c, c, c⟩ 15 = (c, c) := by
  have h1 : fg_set ⟨c, c, c, c⟩ 15 = [c, c, c, c] := rfl
  have h2 : bg_set ⟨c, c, c, c⟩ 15 = [] := rfl
  have h3 : Quad.toList ⟨c, c, c, c⟩ = [c, c, c, c] := rfl
  simp only [mask_fg_bg, h1, h2, h3]
  rw [if_pos (by simp), if_neg (by simp)]
  rw [average_color_four_same]

theorem mask_err_uniform_zero (c : Color) : mask_err ⟨c, c, c, c⟩ 0 = 0 := by
  have hr : List.range 4 = [0, 1, 2, 3] := rfl
  simp [mask_err, hr, mask_fg_bg_uniform_zero, Quad.px, color_dist2_self]

theorem mask_err_uniform_fifteen (c : Color) : mask_err ⟨c, c, c, c⟩ 15 = 0 := by
  have hr : List.range 4 = [0, 1, 2, 3] := rfl
  simp [mask_err, hr, mask_fg_bg_uniform_fifteen, Quad.px, color_dist2_self]

theorem pick_best_mask_uniform (c : Color) : (pick_best_mask ⟨c, c, c, c⟩).1 = 0 := by
  by_contra h
  have hpos : 0 < (pick_best_mask ⟨c, c, c, c⟩).1 := Nat.pos_of_ne_zero h
  have hstrict := (pick_best_mask_spec ⟨c, c, c, c⟩).2.2.2.2 0 hpos
  have hnn := mask_err_nonneg ⟨c, c, c, c⟩ (pick_best_mask ⟨c, c, c, c⟩).1
  rw [mask_err_uniform_zero] at hstrict
  linarith

/-! ### Batching loop invariant -/

theorem batch_fold_inv {α : Type} (N : ℕ) (hN : 1 ≤ N) :
    ∀ (cells : List α) (acc : List (List α) × List α),
      acc.2.length < N →
      (∀ b ∈ acc.1, b.length ≤ N ∧ b ≠ []) →
      (cells.foldl (batch_step N) acc).1.flatten ++ (cells.foldl (batch_step N) acc).2
          = acc.1.flatten ++ acc.2 ++ cells ∧
      (cells.foldl (batch_step N) acc).2.length < N ∧
      (∀ b ∈ (cells.foldl (batch_step N) acc).1, b.length ≤ N ∧ b ≠ []) := by
  intro cells
  induction cells with
  | nil =>
    intro acc h1 h2
    exact ⟨by simp, h1, h2⟩
  | cons c rest ih =>
    intro acc h1 h2
    by_cases hfull : N ≤ (acc.2 ++ [c]).length
    · have hstep : batch_step N acc c = (acc.1 ++ [acc.2 ++ [c]], []) := by
        simp only [batch_step]
        rw [if_pos hfull]
      rw [List.foldl_cons, hstep]
      have h1' : (([], []) : List (List α) × List α).2.length < N := by simpa using hN
      have h2' : ∀ b ∈ acc.1 ++ [acc.2 ++ [c]], b.length ≤ N ∧ b ≠ [] := by
        intro b hb
        rcases List.mem_append.mp hb with hb | hb
        · exact h2 b hb
        · simp only [List.mem_singleton] at hb
          subst hb
          refine ⟨?_, by simp⟩
          have hl : (acc.2 ++ [c]).length = acc.2.length + 1 := by simp
          omega
      obtain ⟨g1, g2, g3⟩ := ih (acc.1 ++ [acc.2 ++ [c]], []) (by simpa using hN) h2'
      refine ⟨?_, g2, g3⟩
      rw [g1]
      simp [List.flatten_append, List.append_assoc]
    · have hstep : batch_step N acc c = (acc.1, acc.2 ++ [c]) := by
        simp only [batch_step]
        rw [if_neg hfull]
      rw [List.foldl_cons, hstep]
      have h1' : (acc.2 ++ [c]).length < N := by
        simp only [List.length_append, List.length_singleton] at hfull ⊢
        omega
      obtain ⟨g1, g2, g3⟩ := ih (acc.1, acc.2 ++ [c]) h1' h2
      refine ⟨?_, g2, g3⟩
      rw [g1]
      simp [List.append_assoc]

theorem emit_batches_inv {α : Type} (N : ℕ) (hN : 1 ≤ N) (S : List α) :
    (emit_batches N S).flatten = S ∧
    ∀ b ∈ emit_batches N S, b.length ≤ N ∧ b ≠ [] := by
  obtain ⟨g1, g2, g3⟩ := batch_fold_inv N hN S ([], []) (by simpa using hN) (by simp)
  simp only [emit_batches]
  by_cases h : (S.foldl (batch_step N) ([], [])).2.isEmpty
  · rw [if_pos h]
    have h2 : (S.foldl (batch_step N) ([], [])).2 = [] := List.isEmpty_iff.mp h
    rw [h2] at g1
    simp only [List.append_nil] at g1
    refine ⟨by simpa using g1, g3⟩
  · rw [if_neg h]
    have h2 : (S.foldl (batch_step N) ([], [])).2 ≠ [] := by
      intro hc
      exact h (List.isEmpty_iff.mpr hc)
    constructor
    · rw [List.flatten_append]
      simpa using g1
    · intro b hb
      rcases List.mem_append.mp hb with hb | hb
      · exact g3 b hb
      · simp only [List.mem_singleton] at hb
        subst hb
        exact ⟨le_of_lt g2, h2⟩

/-! ### Run-length encoder invariants -/

theorem expand_runs_append (a b : List Run) :
    expand_runs (a ++ b) = expand_runs a ++ expand_runs b := by
  simp [expand_runs]

theorem compress_go_expand :
    ∀ (rest : List Color) (prev : Color) (count : ℕ) (runs : List Run),
      expand_runs (compress_go rest prev count runs)
        = expand_runs runs ++ List.replicate count prev ++ rest := by
  intro rest
  induction rest with
  | nil =>
    intro prev count runs
    simp [compress_go, expand_runs_append, expand_runs, close_run]
  | cons px rest ih =>
    intro prev count runs
    by_cases h : px = prev
    · simp only [compress_go]
      rw [if_pos h, ih, List.replicate_succ']
      subst h
      simp [List.append_assoc]
    · simp only [compress_go]
      rw [if_neg h, ih, expand_runs_append]
      simp [expand_runs, close_run, List.append_assoc]

theorem compress_row_rgb_expand (row : List Color) :
    expand_runs (compress_row_rgb row) = row := by
  cases row with
  | nil => rfl
  | cons px rest =>
    simp only [compress_row_rgb]
    rw [compress_go_expand]
    simp [expand_runs]

theorem sum_counts_eq_length (runs : List Run) :
    sum_counts runs = (expand_runs runs).length := by
  induction runs with
  | nil => rfl
  | cons r rest ih =>
    simp only [sum_counts, expand_runs, List.map_cons, List.sum_cons, List.flatten_cons,
      List.length_append, List.length_replicate] at ih ⊢
    omega

theorem compress_go_counts_pos :
    ∀ (rest : List Color) (prev : Color) (count : ℕ) (runs : List Run),
      0 < count → (∀ r ∈ runs, 0 < r.count) →
      ∀ r ∈ compress_go rest prev count runs, 0 < r.count := by
  intro rest
  induction rest with
  | nil =>
    intro prev count runs hc hr r hrr
    simp only [compress_go] at hrr
    rcases List.mem_append.mp hrr with h' | h'
    · exact hr r h'
    · simp only [List.mem_singleton] at h'
      subst h'
      simpa [close_run] using hc
  | cons px rest ih =>
    intro prev count runs hc hr r hrr
    by_cases h : px = prev
    · simp only [compress_go] at hrr
      rw [if_pos h] at hrr
      exact ih prev (count + 1) runs (by omega) hr r hrr
    · simp only [compress_go] at hrr
      rw [if_neg h] at hrr
      refine ih px 1 _ (by omega) ?_ r hrr
      intro r' hr'
      rcases List.mem_append.mp hr' with h' | h'
      · exact hr r' h'
      · simp only [List.mem_singleton] at h'
        subst h'
        simpa [close_run] using hc

theorem compress_go_chain :
    ∀ (rest : List Color) (prev : Color) (count : ℕ) (runs : List Run),
      List.Chain' (fun a b : Run => a.fg ≠ b.fg) runs →
      (∀ r, runs.getLast? = some r → r.fg ≠ prev) →
      List.Chain' (fun a b : Run => a.fg ≠ b.fg) (compress_go rest prev count runs) := by
  intro rest
  induction rest with
  | nil =>
    intro prev count runs hch hlast
    simp only [compress_go]
    rw [List.chain'_append]
    refine ⟨hch, List.chain'_singleton _, ?_⟩
    intro x hx y hy
    simp only [List.head?_cons, Option.mem_def, Option.some.injEq] at hy
    subst hy
    simpa [close_run] using hlast x (Option.mem_def.mp hx)
  | cons px rest ih =>
    intro prev count runs hch hlast
    by_cases h : px = prev
    · simp only [compress_go]
      rw [if_pos h]
      exact ih prev (count + 1) runs hch hlast
    · simp only [compress_go]
      rw [if_neg h]
      refine ih px 1 _ ?_ ?_
      · rw [List.chain'_append]
        refine ⟨hch, List.chain'_singleton _, ?_⟩
        intro x hx y hy
        simp only [List.head?_cons, Option.mem_def, Option.some.injEq] at hy
        subst hy
        simpa [close_run] using hlast x (Option.mem_def.mp hx)
      · intro r hr
        rw [List.getLast?_concat] at hr
        injection hr with hr
        subst hr
        simp only [close_run]
        exact fun hc => h hc.symm

/-! ### Cell construction and frame validity -/

theorem build_cells_grid_mem (sub : List (List Color)) (w h : ℕ) (c : Cell)
    (hc : c ∈ build_cells_grid sub w h) :
    c.ch = QUAD_CHARS.getD (pick_best_mask (quad_at sub c.x c.y)).1 " " := by
  simp only [build_cells_grid, List.mem_flatMap, List.mem_map, List.mem_range] at hc
  obtain ⟨y, hy, x, hx, rfl⟩ := hc
  simp [cell_at]

theorem build_cells_grid_one (sub : List (List Color)) :
    build_cells_grid sub 1 1 = [cell_at sub 0 0] := by
  have hr : List.range 1 = [0] := rfl
  simp [build_cells_grid, hr]

theorem frame_batches_invalid (sample : ℕ → ℕ → Color) (frame : List (List Color))
    (w h : ℤ) (N : ℕ) (hinv : w ≤ 0 ∨ h ≤ 0 ∨ frame.flatten = []) :
    frame_batches sample frame w h N = Except.error FrameError.invalidDimensions := by
  have hcond : w * 2 ≤ 0 ∨ h * 2 ≤ 0 ∨ frame.flatten = [] := by
    rcases hinv with h' | h' | h'
    · left
      omega
    · right
      left
      omega
    · right
      right
      exact h'
  simp only [frame_batches, build_cells_from_frame, area_resize]
  rw [if_pos hcond]
  rfl

/-! ### Claim theorems -/

/-- C1: `pick_best_mask` returns a mask whose total YUV error is minimal
among all 16 masks, and every lower-numbered mask has strictly larger
error, so on exact ties the lowest mask index wins (the ascending scan
keeps the first minimum); in particular a quad of four identical colors
has error 0 at masks 0 and 15 and mask 0 is selected. -/
theorem pick_best_mask_minimal (q : Quad) :
    (∀ m, m < 16 → mask_err q (pick_best_mask q).1 ≤ mask_err q m) ∧
    (∀ m, m < (pick_best_mask q).1 → mask_err q (pick_best_mask q).1 < mask_err q m) ∧
    (∀ c : Color, (pick_best_mask ⟨c, c, c, c⟩).1 = 0 ∧
      mask_err ⟨c, c, c, c⟩ 0 = 0 ∧ mask_err ⟨c, c, c, c⟩ 15 = 0) :=
  ⟨(pick_best_mask_spec q).2.2.2.1, (pick_best_mask_spec q).2.2.2.2,
   fun c => ⟨pick_best_mask_uniform c, mask_err_uniform_zero c, mask_err_uniform_fifteen c⟩⟩

theorem pick_best_mask_minimal_witness :
    mask_err ⟨(1, 2, 3), (4, 5, 6), (7, 8, 9), (10, 11, 12)⟩
        (pick_best_mask ⟨(1, 2, 3), (4, 5, 6), (7, 8, 9), (10, 11, 12)⟩).1
      ≤ mask_err ⟨(1, 2, 3), (4, 5, 6), (7, 8, 9), (10, 11, 12)⟩ 5 ∧
    mask_err ⟨(255, 255, 255), (255, 255, 255), (0, 0, 0), (0, 0, 0)⟩
        (pick_best_mask ⟨(255, 255, 255), (255, 255, 255), (0, 0, 0), (0, 0, 0)⟩).1
      < mask_err ⟨(255, 255, 255), (255, 255, 255), (0, 0, 0), (0, 0, 0)⟩ 0 ∧
    (pick_best_mask ⟨(9, 9, 9), (9, 9, 9), (9, 9, 9), (9, 9, 9)⟩).1 = 0 :=
  ⟨(pick_best_mask_minimal ⟨(1, 2, 3), (4, 5, 6), (7, 8, 9), (10, 11, 12)⟩).1 5 (by decide),
   (pick_best_mask_minimal ⟨(255, 255, 255), (255, 255, 255), (0, 0, 0), (0, 0, 0)⟩).2.1 0
     (by rw [pick_best_mask_eq_Z]; decide),
   ((pick_best_mask_minimal ⟨(9, 9, 9), (9, 9, 9), (9, 9, 9), (9, 9, 9)⟩).2.2 (9, 9, 9)).1⟩

/-- C2: for every maximum batch size N ≥ 1 and input sequence S, the
batching loop of `main` emits batches whose concatenation in emission
order is S, no emitted batch exceeds N elements, and no emitted batch is
empty. -/
theorem batching_loop_spec {α : Type} (N : ℕ) (hN : 1 ≤ N) (S : List α) :
    (emit_batches N S).flatten = S ∧
    (∀ b ∈ emit_batches N S, b.length ≤ N) ∧
    (∀ b ∈ emit_batches N S, b ≠ []) := by
  obtain ⟨h1, h2⟩ := emit_batches_inv N hN S
  exact ⟨h1, fun b hb => (h2 b hb).1, fun b hb => (h2 b hb).2⟩

theorem batching_loop_spec_witness :
    (emit_batches 2 [1, 2, 3]).flatten = [1, 2, 3] ∧
    ([1, 2] : List ℕ).length ≤ 2 ∧ ([3] : List ℕ) ≠ [] :=
  ⟨(batching_loop_spec 2 (by decide) [1, 2, 3]).1,
   (batching_loop_spec 2 (by decide) [1, 2, 3]).2.1 [1, 2] (by decide),
   (batching_loop_spec 2 (by decide) [1, 2, 3]).2.2 [3] (by decide)⟩

/-- C3: for every row of W pixels, the counts of the runs emitted by
`compress_row_rgb` sum exactly to W and every emitted run has count ≥ 1. -/
theorem row_encoder_counts (row : List Color) :
    sum_counts (compress_row_rgb row) = row.length ∧
    ∀ r ∈ compress_row_rgb row, 1 ≤ r.count := by
  constructor
  · rw [sum_counts_eq_length, compress_row_rgb_expand]
  · cases row with
    | nil =>
      intro r hr
      simp [compress_row_rgb] at hr
    | cons px rest =>
      intro r hr
      exact compress_go_counts_pos rest px 1 [] (by omega) (by simp) r hr

theorem row_encoder_counts_witness :
    sum_counts (compress_row_rgb [(1, 1, 1), (1, 1, 1), (2, 2, 2)]) = 3 ∧
    1 ≤ (Run.mk 2 "■" (1, 1, 1) (0, 0, 0)).count :=
  ⟨(row_encoder_counts [(1, 1, 1), (1, 1, 1), (2, 2, 2)]).1,
   (row_encoder_counts [(1, 1, 1), (1, 1, 1), (2, 2, 2)]).2
     (Run.mk 2 "■" (1, 1, 1) (0, 0, 0)) (by decide)⟩

/-- C4: run-length encoding round-trips: expanding each run of
`compress_row_rgb` into count copies of its color reproduces the row;
runs are maximal (adjacent runs carry different colors); and the row
[red, red, red, blue] encodes to [{count 3, red}, {count 1, blue}]. -/
theorem row_encoder_round_trip (row : List Color) :
    expand_runs (compress_row_rgb row) = row ∧
    List.Chain' (fun a b : Run => a.fg ≠ b.fg) (compress_row_rgb row) ∧
    compress_row_rgb [(255, 0, 0), (255, 0, 0), (255, 0, 0), (0, 0, 255)]
      = [Run.mk 3 "■" (255, 0, 0) (0, 0, 0), Run.mk 1 "■" (0, 0, 255) (0, 0, 0)] := by
  refine ⟨compress_row_rgb_expand row, ?_, by decide⟩
  cases row with
  | nil => simp [compress_row_rgb]
  | cons px rest =>
    exact compress_go_chain rest px 1 [] List.chain'_nil (by simp)

/-- C5: when the target grid width or height is ≤ 0, or the source frame
is empty, the frame's processing fails fast with the InvalidDimensions
condition and emits no batch at all. -/
theorem invalid_dimensions_fail_fast (sample : ℕ → ℕ → Color) (frame : List (List Color))
    (w h : ℤ) (N : ℕ) (hinv : w ≤ 0 ∨ h ≤ 0 ∨ frame.flatten = []) :
    frame_batches sample frame w h N = Except.error FrameError.invalidDimensions :=
  frame_batches_invalid sample frame w h N hinv

theorem invalid_dimensions_fail_fast_witness :
    frame_batches (fun _ _ => (0, 0, 0)) [[(5, 5, 5)]] 0 7 200
      = Except.error FrameError.invalidDimensions :=
  invalid_dimensions_fail_fast (fun _ _ => (0, 0, 0)) [[(5, 5, 5)]] 0 7 200
    (Or.inl (by decide))

/-- C6: a mask with an empty foreground (or background) group falls back
to the average of all four pixels, handled locally by `pick_best_mask`'s
group construction; `average_color` of an empty list is (0,0,0) and of
the single color (10,20,30) is exactly (10,20,30). -/
theorem degenerate_block_fallback :
    (∀ q : Quad, (mask_fg_bg q 0).1 = average_color q.toList ∧
        (mask_fg_bg q 15).2 = average_color q.toList) ∧
    average_color [] = (0, 0, 0) ∧
    average_color [(10, 20, 30)] = (10, 20, 30) := by
  refine ⟨?_, rfl, ?_⟩
  · intro q
    constructor
    · have h1 : fg_set q 0 = [] := rfl
      simp [mask_fg_bg, h1]
    · have h2 : bg_set q 15 = [] := rfl
      simp [mask_fg_bg, h2]
  · rw [average_color_eq_avgN]
    decide

/-- C7: every emitted cell's character is the glyph at index mask in the
fixed 16-entry alphabet (the winning mask is always in [0,16)), the
`bruh.py` table reproduces the wire-contract alphabet exactly, and the
`video.py` copy of the table is identical entry for entry. -/
theorem glyph_table_contract :
    QUAD_CHARS = wire_glyph_alphabet ∧
    QUAD_CHARS_video = QUAD_CHARS ∧
    (∀ q : Quad, (pick_best_mask q).1 < 16) ∧
    (∀ (sub : List (List Color)) (w h : ℕ), ∀ c ∈ build_cells_grid sub w h,
      c.ch = QUAD_CHARS.getD (pick_best_mask (quad_at sub c.x c.y)).1 " ") :=
  ⟨rfl, rfl, fun q => (pick_best_mask_spec q).1,
   fun sub w h c hc => build_cells_grid_mem sub w h c hc⟩

theorem glyph_table_contract_witness :
    (cell_at [[(3, 3, 3), (9, 9, 9)], [(0, 0, 0), (250, 250, 250)]] 0 0).ch
      = QUAD_CHARS.getD
          (pick_best_mask (quad_at [[(3, 3, 3), (9, 9, 9)], [(0, 0, 0), (250, 250, 250)]]
            (cell_at [[(3, 3, 3), (9, 9, 9)], [(0, 0, 0), (250, 250, 250)]] 0 0).x
            (cell_at [[(3, 3, 3), (9, 9, 9)], [(0, 0, 0), (250, 250, 250)]] 0 0).y)).1 " " :=
  glyph_table_contract.2.2.2 [[(3, 3, 3), (9, 9, 9)], [(0, 0, 0), (250, 250, 250)]] 1 1
    (cell_at [[(3, 3, 3), (9, 9, 9)], [(0, 0, 0), (250, 250, 250)]] 0 0)
    (by rw [build_cells_grid_one]; exact List.mem_singleton.mpr rfl)

/-- C8: for the quad [white, white, black, black] in (TL, TR, BL, BR)
order, `pick_best_mask` returns mask 3 (glyph ▀) with foreground
(255,255,255) and background (0,0,0). -/
theorem white_black_quad :
    pick_best_mask ⟨(255, 255, 255), (255, 255, 255), (0, 0, 0), (0, 0, 0)⟩
      = (3, (255, 255, 255), (0, 0, 0)) := by
  rw [pick_best_mask_eq_Z]
  decide

/-- C9: `average_color` rounds each channel's arithmetic mean half-up:
for every non-empty color list each output channel is
`floor(mean + 0.5)`; in particular the mean of channel values 0 and 1
rounds to 1. -/
theorem average_color_rounds_half_up (colors : List Color) (h : colors ≠ []) :
    (average_color colors).1
        = (Int.floor ((colors.map fun c => (c.1 : ℚ)).sum / (colors.length : ℚ) + 0.5)).toNat ∧
    (average_color colors).2.1
        = (Int.floor ((colors.map fun c => (c.2.1 : ℚ)).sum / (colors.length : ℚ) + 0.5)).toNat ∧
    (average_color colors).2.2
        = (Int.floor ((colors.map fun c => (c.2.2 : ℚ)).sum / (colors.length : ℚ) + 0.5)).toNat ∧
    average_color [(0, 0, 0), (1, 1, 1)] = (1, 1, 1) := by
  have hs1 : (0 : ℚ) ≤ (colors.map fun c => (c.1 : ℚ)).sum := by
    apply List.sum_nonneg
    intro x hx
    simp only [List.mem_map] at hx
    obtain ⟨c, _, rfl⟩ := hx
    positivity
  have hs2 : (0 : ℚ) ≤ (colors.map fun c => (c.2.1 : ℚ)).sum := by
    apply List.sum_nonneg
    intro x hx
    simp only [List.mem_map] at hx
    obtain ⟨c, _, rfl⟩ := hx
    positivity
  have hs3 : (0 : ℚ) ≤ (colors.map fun c => (c.2.2 : ℚ)).sum := by
    apply List.sum_nonneg
    intro x hx
    simp only [List.mem_map] at hx
    obtain ⟨c, _, rfl⟩ := hx
    positivity
  have hlen : (0 : ℚ) ≤ (colors.length : ℚ) := by positivity
  have hhalf : (0 : ℚ) ≤ 0.5 := by norm_num
  refine ⟨?_, ?_, ?_, by rw [average_color_eq_avgN]; decide⟩
  · simp only [average_color, if_neg h]
    rw [py_int_of_nonneg _ (add_nonneg (div_nonneg hs1 hlen) hhalf)]
  · simp only [average_color, if_neg h]
    rw [py_int_of_nonneg _ (add_nonneg (div_nonneg hs2 hlen) hhalf)]
  · simp only [average_color, if_neg h]
    rw [py_int_of_nonneg _ (add_nonneg (div_nonneg hs3 hlen) hhalf)]

theorem average_color_rounds_half_up_witness :
    (average_color [(0, 0, 0), (1, 1, 1)]).1
        = (Int.floor ((([(0, 0, 0), (1, 1, 1)] : List Color).map fun c => (c.1 : ℚ)).sum
            / (([(0, 0, 0), (1, 1, 1)] : List Color).length : ℚ) + 0.5)).toNat ∧
    average_color [(0, 0, 0), (1, 1, 1)] = (1, 1, 1) :=
  ⟨(average_color_rounds_half_up [(0, 0, 0), (1, 1, 1)] (by decide)).1,
   (average_color_rounds_half_up [(0, 0, 0), (1, 1, 1)] (by decide)).2.2.2⟩

/-- C10: for an empty row the encoder returns the empty run list (no
final run is emitted), and the sum-of-counts invariant holds vacuously. -/
theorem empty_row_no_runs :
    compress_row_rgb ([] : List Color) = [] ∧
    sum_counts (compress_row_rgb ([] : List Color)) = 0 :=
  ⟨rfl, rfl⟩
